import Mathlib

/-!
Verification development for the bun-doc-mcp documentation server.

The definitions below are a shallow embedding of the search/index core of
the repository (src/index.ts, src/server.ts, src/src/cache.ts and the
worker source).  JavaScript strings are modelled as Lean strings, the JS
Map as an insertion-ordered association list, SQLite rows as structures,
fallible operations as Except/Option.  The external engines that cannot be
shallowly embedded (the FTS5 MATCH predicate, the bm25 value, the compiled
JavaScript regular expression) are abstracted as parameters; all the
surrounding pipeline logic is translated from the source.
-/

deriving instance DecidableEq for Except

/-- ASCII whitespace recognised by the JavaScript regular expression class
backslash-s and by String.prototype.trim (space, tab, newline, carriage
return, vertical tab, form feed). -/
def isJsSpace (c : Char) : Bool :=
  c = ' ' || c = '\t' || c = '\n' || c = '\r' || c = Char.ofNat 11 || c = Char.ofNat 12

/-- Drop leading and trailing JS whitespace from a character list. -/
def jsTrimL (l : List Char) : List Char :=
  ((l.dropWhile isJsSpace).reverse.dropWhile isJsSpace).reverse

/-- Model of String.prototype.trim. -/
def jsTrim (s : String) : String :=
  String.mk (jsTrimL s.toList)

/-- Model of String.prototype.includes restricted to what the source needs:
does the character list contain the pattern as a contiguous run. -/
def hasSubstr (pat : List Char) : List Char → Bool
  | [] => pat.isEmpty
  | c :: rest => pat.isPrefixOf (c :: rest) || hasSubstr pat rest

/-- Fuelled scan of the global String.prototype.replace with a fixed
pattern: left to right, replacing each non-overlapping occurrence of pat.
The fuel only serves structural recursion; it is set to the subject
length, which every step respects because a replacement consumes at least
one character. -/
def replaceAllAux (pat rep : List Char) : Nat → List Char → List Char
  | 0, s => s
  | _ + 1, [] => []
  | fuel + 1, c :: rest =>
    if pat ≠ [] ∧ pat.isPrefixOf (c :: rest) then
      rep ++ replaceAllAux pat rep fuel ((c :: rest).drop pat.length)
    else
      c :: replaceAllAux pat rep fuel rest

/-- Model of the global String.prototype.replace with a fixed pattern. -/
def replaceAllL (pat rep s : List Char) : List Char :=
  replaceAllAux pat rep s.length s

/-- String wrapper for replaceAllL. -/
def jsReplaceAll (pat rep s : String) : String :=
  String.mk (replaceAllL pat.toList rep.toList s.toList)

/-- Model of the one-shot String.prototype.replace with a fixed pattern:
only the first occurrence is replaced. -/
def replaceFirstL (pat rep : List Char) (s : List Char) : List Char :=
  match s with
  | [] => []
  | c :: rest =>
    if pat ≠ [] ∧ pat.isPrefixOf (c :: rest) then
      rep ++ (c :: rest).drop pat.length
    else
      c :: replaceFirstL pat rep rest

/-- String wrapper for replaceFirstL. -/
def jsReplaceFirst (pat rep s : String) : String :=
  String.mk (replaceFirstL pat.toList rep.toList s.toList)

/-- SQLite LIKE comparison of a single pattern character with a subject
character: case-insensitive for ASCII letters (the SQLite default). -/
def likeChar (p c : Char) : Bool :=
  p.toLower = c.toLower

/-- Fuelled SQLite LIKE matching; every step shortens the pattern or the
subject, so fuel equal to the two lengths plus one is always enough. -/
def likeAux : Nat → List Char → List Char → Bool
  | 0, _, _ => false
  | _ + 1, [], [] => true
  | _ + 1, [], _ :: _ => false
  | f + 1, '%' :: ps, [] => likeAux f ps []
  | f + 1, '%' :: ps, c :: t => likeAux f ps (c :: t) || likeAux f ('%' :: ps) t
  | _ + 1, '_' :: _, [] => false
  | f + 1, '_' :: ps, _ :: t => likeAux f ps t
  | _ + 1, _ :: _, [] => false
  | f + 1, p0 :: ps, c :: t => likeChar p0 c && likeAux f ps t

/-- SQLite LIKE pattern matching on character lists: the percent sign
matches any run of characters, the underscore matches any single
character, every other character matches itself up to ASCII case. -/
def sqliteLikeL (p s : List Char) : Bool :=
  likeAux (p.length + s.length + 1) p s

/-- String wrapper for sqliteLikeL. -/
def sqliteLike (pat s : String) : Bool :=
  sqliteLikeL pat.toList s.toList

/-- Index of the first occurrence of pat in l, if any. -/
def firstMatchIdx (pat : List Char) : List Char → Option Nat
  | [] => if pat.isEmpty then some 0 else none
  | c :: rest =>
    if pat.isPrefixOf (c :: rest) then some 0
    else (firstMatchIdx pat rest).map (· + 1)

/-- Model of String.prototype.indexOf with a start position (none models
the JavaScript return value -1). -/
def jsIndexOfFrom (pat s : String) (start : Nat) : Option Nat :=
  (firstMatchIdx pat.toList (s.toList.drop start)).map (· + start)

/-- Collapse every run of newline characters to a single space, the model
of replacing the global newline-run pattern with a space; the flag records
whether the previous character belonged to a newline run. -/
def collapseNlAux : Bool → List Char → List Char
  | _, [] => []
  | prevNl, c :: rest =>
    if c = '\n' then
      if prevNl then collapseNlAux true rest else ' ' :: collapseNlAux true rest
    else c :: collapseNlAux false rest

/-- Collapse every run of newline characters to a single space. -/
def collapseNewlines (l : List Char) : List Char :=
  collapseNlAux false l

/-- Deduplication walk of a JavaScript Set insertion pass: characters
already seen are skipped, new ones are kept and recorded. -/
def dedupAux (seen : List Char) : List Char → List Char
  | [] => []
  | c :: rest =>
    if seen.contains c then dedupAux seen rest
    else c :: dedupAux (seen ++ [c]) rest

/-- First-occurrence deduplication of a character list, the model of
Array.from applied to a JavaScript Set built from the list. -/
def dedupFirst (l : List Char) : List Char :=
  dedupAux [] l

/-- Model of Array.prototype.join with the separator " OR ". -/
def joinOr : List String → String
  | [] => ""
  | [x] => x
  | x :: y :: xs => x ++ " OR " ++ joinOr (y :: xs)

/-- Model of String.prototype.startsWith. -/
def jsStartsWith (s pre : String) : Bool :=
  pre.toList.isPrefixOf s.toList

/-- Model of String.prototype.endsWith. -/
def jsEndsWith (s suf : String) : Bool :=
  suf.toList.reverse.isPrefixOf s.toList.reverse

/-- Split a character list at every separator character, keeping the
possibly empty pieces between separators. -/
def splitChars (p : Char → Bool) (cur : List Char) : List Char → List (List Char)
  | [] => [cur.reverse]
  | c :: rest =>
    if p c then cur.reverse :: splitChars p [] rest
    else splitChars p (c :: cur) rest

/-- Model of the split of a string on single whitespace characters; after
the empty pieces are filtered away (which the source always does) this
coincides with the JavaScript split on whitespace runs. -/
def splitStr (s : String) (p : Char → Bool) : List String :=
  (splitChars p [] s.toList).map String.mk

/-- Insertion of an element into a sorted list, placing it after every
element that compares less-or-equal, which keeps the sort stable. -/
def insertSorted {α : Type} (le : α → α → Bool) (a : α) : List α → List α
  | [] => [a]
  | b :: rest => if le b a then b :: insertSorted le a rest else a :: b :: rest

/-- A stable sort with respect to a boolean comparator, the model of both
the SQL ORDER BY clause and the stable JavaScript Array.prototype.sort. -/
def jsSortBy {α : Type} (le : α → α → Bool) (l : List α) : List α :=
  l.foldl (fun acc a => insertSorted le a acc) []

/-! Data model: the SQLite full-text row, the search result shape, and the
in-memory catalog entry (IndexedResource) of src/index.ts. -/

/-- One row of the docs_fts full-text table.  The uri column stores the
bare slug; the scheme prefix is re-added at query time. -/
structure FtsRow where
  uri : String
  title : String
  category : String
  summary : String
  content : String
deriving Repr, DecidableEq

/-- The SearchResult shape returned by the search and grep tools.  The
reported score is modelled as an integer (bm25 produces a float in the
source; its two-decimal rounding is irrelevant to every claim below and is
not modelled). -/
structure SearchResult where
  uri : String
  title : String
  score : Int
  snippet : String
deriving Repr, DecidableEq

/-- The IndexedResource catalog entry of src/index.ts.  filePath is none
when the source field is absent, isDirectory false when absent. -/
structure IndexedResource where
  uri : String
  name : String
  description : String
  mimeType : String
  filePath : Option String
  isDirectory : Bool
deriving Repr, DecidableEq

/-! Full-text search engine (src/index.ts lines 629 to 691).  The FTS5
MATCH predicate, the bm25 ranking value and the snippet function are
external SQLite behaviour and are abstracted as the fields of FtsEngine;
the query construction, sanitization, filtering, ordering, limiting and
row post-processing are translated from the source. -/

/-- Abstract interface to the SQLite FTS5 engine: the MATCH predicate for
a sanitized query, the bm25 value under the fixed column weights (lower is
better), and the snippet output for a row under a query (with the open
and close sentinels hard-wired by the source to three greater-than signs
and three less-than signs). -/
structure FtsEngine where
  mtch : String → FtsRow → Bool
  bm : FtsRow → Int
  snip : String → FtsRow → String

/-- Reserved FTS5 characters stripped by sanitizeFtsQuery: double quote,
colon, asterisk, caret, opening parenthesis, closing parenthesis. -/
def ftsReserved (c : Char) : Bool :=
  c = '\"' || c = ':' || c = '*' || c = '^' || c = '(' || c = ')'

/-- Remove the reserved characters from a term (the global replace in the
source). -/
def cleanTerm (t : String) : String :=
  String.mk (t.toList.filter (fun c => !ftsReserved c))

/-- Translation of sanitizeFtsQuery: split on whitespace runs, drop empty
terms, strip reserved characters, drop terms that became empty, wrap each
survivor in double quotes, join with OR. -/
def sanitizeFtsQuery (query : String) : String :=
  let terms := (splitStr query isJsSpace).filter (fun t => t.length > 0)
  let quoted := terms.filterMap (fun t =>
    let cleaned := cleanTerm t
    if cleaned = "" then none else some ("\"" ++ cleaned ++ "\""))
  joinOr quoted

/-- Comparator for the ORDER BY score clause: ascending bm25 value. -/
def scoreLe (e : FtsEngine) (a b : FtsRow) : Bool :=
  decide (e.bm a ≤ e.bm b)

/-- Execution of the SELECT built by searchDocuments: rows satisfying
MATCH, then (only when a path filter was supplied) the added predicate
uri LIKE path followed by a percent sign, ordered by ascending bm25
score, limited. -/
def runSearchSql (e : FtsEngine) (rows : List FtsRow) (q searchPath : String) (lim : Nat) :
    List FtsRow :=
  let base := rows.filter (e.mtch q)
  let filtered :=
    if searchPath = "" then base
    else base.filter (fun r => sqliteLike (searchPath ++ "%") r.uri)
  (jsSortBy (scoreLe e) filtered).take lim

/-- The post-processing of the snippet column: replace every occurrence of
the open sentinel, then every occurrence of the close sentinel, with the
double-asterisk emphasis marker. -/
def postprocessSnippet (s : String) : String :=
  jsReplaceAll "<<<" "**" (jsReplaceAll ">>>" "**" s)

/-- The row-to-result map of searchDocuments: re-prefix the slug with the
scheme, negate the bm25 score (lower bm25 is better, higher reported score
is better), post-process the snippet. -/
def toSearchResult (e : FtsEngine) (q : String) (r : FtsRow) : SearchResult :=
  { uri := "buncument://" ++ r.uri
    title := r.title
    score := - e.bm r
    snippet := postprocessSnippet (e.snip q r) }

/-- Translation of searchDocuments, instrumented with the number of
executions of the prepared store statement (the stmt.all call): the early
return on an empty sanitized query performs zero executions, every other
path performs exactly one. -/
def searchDocumentsRun (e : FtsEngine) (rows : List FtsRow) (query searchPath : String)
    (lim : Nat) : List SearchResult × Nat :=
  let s := sanitizeFtsQuery query
  if s = "" then ([], 0)
  else ((runSearchSql e rows s searchPath lim).map (toSearchResult e s), 1)

/-- The result list of searchDocuments. -/
def searchDocuments (e : FtsEngine) (rows : List FtsRow) (query searchPath : String)
    (lim : Nat) : List SearchResult :=
  (searchDocumentsRun e rows query searchPath lim).1

/-! Front-matter stripping, translated from the first step of
extractSummary (src/index.ts lines 579 to 585): when the content starts
with the triple-dash fence, cut everything up to and including the closing
fence found from position 3 on; when no closing fence exists the content
is left unchanged. -/

/-- Strip a leading front-matter block the way extractSummary does. -/
def stripLeadingFrontmatter (content : String) : String :=
  if jsStartsWith content "---" then
    match jsIndexOfFrom "---" content 3 with
    | some endIdx => String.mk (content.toList.drop (endIdx + 3))
    | none => content
  else content

/-! Slug normalization and document reading (src/index.ts lines 760 to
789; src/server.ts carries the same logic inline). -/

/-- The errors thrown by normalizeSlug and readDocument, tagged; the
message function below reproduces the thrown message strings. -/
inductive ReadErr where
  | slugRequired
  | useSlugs
  | notFound (slug : String)
  | notADocument (slug : String)
deriving Repr, DecidableEq

/-- The message text carried by each error. -/
def ReadErr.message : ReadErr → String
  | .slugRequired => "Document slug is required"
  | .useSlugs => "Use documentation slugs like runtime/bun-apis"
  | .notFound s => "Document not found for slug: " ++ s
  | .notADocument s => "Requested slug is not a document: " ++ s

/-- Strip a leading run of slashes (the anchored replace in the source). -/
def stripLeadingSlashes (s : String) : String :=
  String.mk (s.toList.dropWhile (· = '/'))

/-- Strip a trailing run of slashes. -/
def stripTrailingSlashes (s : String) : String :=
  String.mk ((s.toList.reverse.dropWhile (· = '/')).reverse)

/-- Strip one trailing ".md" suffix when present (endsWith test followed
by slice). -/
def stripDotMd (s : String) : String :=
  if jsEndsWith s ".md" then String.mk (s.toList.take (s.toList.length - 3)) else s

/-- Translation of normalizeSlug: trim, reject empty, reject inputs
containing the scheme separator, strip leading and trailing slash runs,
strip one trailing ".md", reject empty again, prefix the scheme. -/
def normalizeSlug (input : String) : Except ReadErr String :=
  let value := jsTrim input
  if value = "" then .error .slugRequired
  else if hasSubstr "://".toList value.toList then .error .useSlugs
  else
    let value2 := stripDotMd (stripTrailingSlashes (stripLeadingSlashes value))
    if value2 = "" then .error .slugRequired
    else .ok ("buncument://" ++ value2)

/-- Translation of readDocument over an explicit catalog (the
RESOURCE_INDEX Map as an insertion-ordered association list) and an
explicit file-content map: normalize, look up, reject missing keys and
non-documents, return the raw file text. -/
def readDocument (catalog : List (String × IndexedResource)) (contents : String → String)
    (input : String) : Except ReadErr String :=
  match normalizeSlug input with
  | .error e => .error e
  | .ok key =>
    match catalog.lookup key with
    | none => .error (.notFound input)
    | some resource =>
      match resource.filePath, resource.isDirectory with
      | some fp, false => .ok (contents fp)
      | _, _ => .error (.notADocument input)

/-! Regex search (grepDocuments, src/index.ts lines 694 to 758).  The
compiled JavaScript regular expression is abstracted as a GrepEngine: the
total match count of content.match under the global flag, and the index of
the first match given by content.search.  Flag handling, iteration,
filtering, snippet arithmetic, sorting and truncation are translated. -/

/-- The flags grepDocuments accepts. -/
def allowedFlags : List Char := ['g', 'i', 'm', 'u', 'y', 's']

/-- Translation of the flag computation of grepDocuments: default
parameter "gi"; an empty flags string is falsy and yields the empty list;
otherwise keep only allowed flags, deduplicate keeping first occurrences;
append the global flag when missing; a final empty join falls back to the
global flag alone. -/
def computeGrepFlags (flags : Option String) : String :=
  let f := flags.getD "gi"
  let flagList :=
    if f = "" then []
    else dedupFirst (f.toList.filter (fun c => allowedFlags.contains c))
  let withG := if flagList.contains 'g' then flagList else flagList ++ ['g']
  let joined := String.mk withG
  if joined = "" then "g" else joined

/-- Abstract interface to the compiled regular expression: total match
count over a content string (zero when match returns null), and the first
match index (content.search; only consulted when the count is positive). -/
structure GrepEngine where
  count : String → Nat
  firstIdx : String → Nat

/-- Translation of the snippet construction of grepDocuments: a window
from 50 characters before to 100 characters after the first match,
newline runs collapsed, trimmed, with ellipsis markers when the window was
cut at either end. -/
def grepSnippet (content : String) (i : Nat) : String :=
  let cs := content.toList
  let start := i - 50
  let stop := min cs.length (i + 100)
  let core := String.mk (jsTrimL (collapseNewlines ((cs.drop start).take (stop - start))))
  let withPre := if start > 0 then "..." ++ core else core
  if stop < cs.length then withPre ++ "..." else withPre

/-- The loop body of grepDocuments over the catalog entries: skip
directories and entries without a backing file, apply the literal
startsWith path filter to the slug (the uri with its scheme prefix
removed), skip unreadable files (the read failure is swallowed), skip
contents with zero matches, and collect a result whose score is the total
match count. -/
def grepCollect (g : GrepEngine) (contents : String → Option String) (searchPath : String) :
    List (String × IndexedResource) → List SearchResult
  | [] => []
  | (uri, resource) :: rest =>
    match resource.filePath, resource.isDirectory with
    | some fp, false =>
      if searchPath ≠ "" ∧ ¬ (jsStartsWith (jsReplaceFirst "buncument://" "" uri) searchPath) then
        grepCollect g contents searchPath rest
      else
        match contents fp with
        | none => grepCollect g contents searchPath rest
        | some content =>
          if g.count content > 0 then
            { uri := resource.uri
              title := resource.name
              score := (g.count content : Int)
              snippet := grepSnippet content (g.firstIdx content) }
              :: grepCollect g contents searchPath rest
          else grepCollect g contents searchPath rest
    | _, _ => grepCollect g contents searchPath rest

/-- Comparator of the final sort of grepDocuments, descending score. -/
def grepScoreGe (a b : SearchResult) : Bool :=
  decide (b.score ≤ a.score)

/-- Translation of grepDocuments: collect, sort descending by score,
truncate to the limit. -/
def grepDocuments (g : GrepEngine) (contents : String → Option String)
    (resources : List (String × IndexedResource)) (searchPath : String) (lim : Nat) :
    List SearchResult :=
  (jsSortBy grepScoreGe (grepCollect g contents searchPath resources)).take lim

/-! Full-text store rebuild.  Two rebuild paths exist in the repository.
The worker source wraps DELETE plus the insert loop in BEGIN TRANSACTION /
COMMIT with ROLLBACK on error.  The main path (buildResourceIndex with
clearSearchIndex and indexDocument in src/index.ts) issues the DELETE and
each INSERT as separate autocommitted statements with no enclosing
transaction.  The store state is the list of rows; a per-row success
predicate models an insert that may throw. -/

/-- Sequential inserts inside the worker transaction: none on the first
failing insert (the exception aborts the loop), the accumulated rows when
every insert succeeds. -/
def runInserts (ok : FtsRow → Bool) : List FtsRow → List FtsRow → Option (List FtsRow)
  | acc, [] => some acc
  | acc, d :: ds => if ok d then runInserts ok (acc ++ [d]) ds else none

/-- Worker REBUILD_INDEX handler: BEGIN, DELETE all rows, insert each
document, COMMIT; on any failure ROLLBACK restores the prior store. -/
def workerRebuild (ok : FtsRow → Bool) (st docs : List FtsRow) : List FtsRow :=
  match runInserts ok [] docs with
  | some rows => rows
  | none => st

/-- Inserts on the main path: each insert autocommits, so the rows
inserted before the first failure remain. -/
def mainRebuildInserts (ok : FtsRow → Bool) : List FtsRow → List FtsRow → List FtsRow
  | acc, [] => acc
  | acc, d :: ds => if ok d then mainRebuildInserts ok (acc ++ [d]) ds else acc

/-- Main-path rebuild (clearSearchIndex followed by one indexDocument per
file): the DELETE commits immediately and discards the prior store, then
inserts run until the first failure. -/
def mainRebuild (ok : FtsRow → Bool) (st docs : List FtsRow) : List FtsRow :=
  let _ := st
  mainRebuildInserts ok [] docs

/-! Result cache (src/src/cache.ts).  The backing JavaScript Map is an
insertion-ordered association list with unique keys; Date.now is an
explicit clock argument. -/

/-- One cache entry: the stored value and its absolute expiry time. -/
structure CacheEntry (α : Type) where
  value : α
  expiry : Nat
deriving Repr, DecidableEq

/-- The SimpleCache state: the Map contents and the configured TTL (the
source default is five minutes in milliseconds). -/
structure SimpleCache (α : Type) where
  cache : List (String × CacheEntry α)
  ttl : Nat

/-- Map.set semantics: overwrite in place when the key exists, append
otherwise. -/
def mapSet {α : Type} : List (String × CacheEntry α) → String → CacheEntry α →
    List (String × CacheEntry α)
  | [], key, e => [(key, e)]
  | (k, v) :: rest, key, e =>
    if k = key then (k, e) :: rest else (k, v) :: mapSet rest key e

/-- Map.delete semantics: remove every pair with the key. -/
def mapDelete {α : Type} (l : List (String × CacheEntry α)) (key : String) :
    List (String × CacheEntry α) :=
  l.filter (fun kv => kv.1 ≠ key)

/-- Translation of SimpleCache.get: a missing key misses; an entry past
its expiry is deleted and misses; otherwise the stored value is hit. -/
def SimpleCache.get {α : Type} (c : SimpleCache α) (now : Nat) (key : String) :
    Option α × SimpleCache α :=
  match c.cache.lookup key with
  | none => (none, c)
  | some entry =>
    if now > entry.expiry then (none, { c with cache := mapDelete c.cache key })
    else (some entry.value, c)

/-- The cleanup sweep: delete every expired entry. -/
def SimpleCache.cleanup {α : Type} (c : SimpleCache α) (now : Nat) : SimpleCache α :=
  { c with cache := c.cache.filter (fun kv => ¬ now > kv.2.expiry) }

/-- Translation of SimpleCache.set: insert with expiry now plus TTL, then
sweep expired entries when the map has grown past 1000 entries. -/
def SimpleCache.set {α : Type} (c : SimpleCache α) (now : Nat) (key : String) (v : α) :
    SimpleCache α :=
  let afterSet : SimpleCache α :=
    { c with cache := mapSet c.cache key { value := v, expiry := now + c.ttl } }
  if afterSet.cache.length > 1000 then afterSet.cleanup now else afterSet

/-- Modelled from the spec: the repository defines SimpleCache but never
wires it into searchDocuments (the class is only referenced from its unit
test).  This wrapper is the search pipeline the spec describes, sanitize
then cache lookup then on miss the store query then cache store, keyed by
the query, path and limit triple.  It returns the results, the updated
cache and the number of store-statement executions. -/
def cachedSearch (e : FtsEngine) (rows : List FtsRow) (c : SimpleCache (List SearchResult))
    (now : Nat) (query searchPath : String) (lim : Nat) :
    List SearchResult × SimpleCache (List SearchResult) × Nat :=
  let key := query ++ "|" ++ searchPath ++ "|" ++ toString lim
  match c.get now key with
  | (some v, c2) => (v, c2, 0)
  | (none, c2) =>
    let run := searchDocumentsRun e rows query searchPath lim
    (run.1, c2.set now key run.1, run.2)

/-! Snippet sentinel model.  The SQLite snippet function returns one
excerpt in which every matched term is wrapped in the configured open and
close tokens; the excerpt is a sequence of plain text pieces and matched
pieces.  Rendering a segment list with a given token pair models that
output. -/

/-- One piece of a snippet excerpt: document text, or a matched term. -/
inductive SnipSeg where
  | plain (text : String)
  | hit (text : String)
deriving Repr, DecidableEq

/-- Render a segment list, wrapping each matched piece in the given open
and close tokens. -/
def renderSnippetWith (opTok clTok : String) : List SnipSeg → String
  | [] => ""
  | SnipSeg.plain t :: rest => t ++ renderSnippetWith opTok clTok rest
  | SnipSeg.hit t :: rest => opTok ++ t ++ clTok ++ renderSnippetWith opTok clTok rest

/-- The snippet output with the sentinels the source configures. -/
def renderSnippet (segs : List SnipSeg) : String :=
  renderSnippetWith ">>>" "<<<" segs

/-- The intended emphasised form: exactly the matched pieces wrapped in
the emphasis marker. -/
def renderEmph (segs : List SnipSeg) : String :=
  renderSnippetWith "**" "**" segs

/-! Concrete instantiations used by witnesses and counterexamples. -/

/-- A trivial instantiation of the abstract FTS engine: every row matches,
constant bm25 value, empty snippets. -/
def trivEngine : FtsEngine :=
  { mtch := fun _ _ => true, bm := fun _ => 0, snip := fun _ _ => "" }

/-- A one-row demonstration store. -/
def demoRow : FtsRow :=
  { uri := "api/serve", title := "Serve", category := "API", summary := ""
    content := "Bun.serve docs" }

/-- Prior store content for the rebuild counterexample. -/
def c1r0 : FtsRow := { uri := "old", title := "Old", category := "", summary := "", content := "" }

/-- First document of the rebuild counterexample (its insert succeeds). -/
def c1d1 : FtsRow := { uri := "d1", title := "One", category := "", summary := "", content := "" }

/-- Second document of the rebuild counterexample (its insert fails). -/
def c1d2 : FtsRow := { uri := "d2", title := "Two", category := "", summary := "", content := "" }

/-- Insert success predicate failing exactly on the second document. -/
def c1ok : FtsRow → Bool := fun r => r.uri ≠ "d2"

/-- A backing file whose text carries a leading front-matter block. -/
def c2content : String := "---\nname: X\n---\nBody text."

/-- A catalog resource backed by that file. -/
def c2res : IndexedResource :=
  { uri := "buncument://guides/x", name := "X", description := ""
    mimeType := "text/markdown", filePath := some "f", isDirectory := false }

/-- A one-entry catalog. -/
def c2catalog : List (String × IndexedResource) := [("buncument://guides/x", c2res)]

/-- The file-content map for the catalog above. -/
def c2contents : String → String := fun _ => c2content

/-- A fresh result cache with the source default TTL of five minutes. -/
def c3cache0 : SimpleCache (List SearchResult) := { cache := [], ttl := 300000 }

/-- A row whose slug is lowercase, for the LIKE case-insensitivity
counterexample. -/
def c5row : FtsRow :=
  { uri := "api/serve", title := "Serve", category := "API", summary := ""
    content := "Bun.serve docs" }

/-- A directory-type catalog resource. -/
def c7dir : IndexedResource :=
  { uri := "buncument://guides", name := "Guides", description := ""
    mimeType := "application/json", filePath := none, isDirectory := true }

/-- A catalog holding only the directory resource. -/
def c7catalog : List (String × IndexedResource) := [("buncument://guides", c7dir)]

/-- A grep engine counting one match in the demonstration content and none
elsewhere. -/
def g6 : GrepEngine :=
  { count := fun s => if s = "Bun.serve content" then 1 else 0, firstIdx := fun _ => 0 }

/-- A file-backed catalog resource for the grep witness. -/
def r6 : IndexedResource :=
  { uri := "buncument://api/serve", name := "Serve", description := ""
    mimeType := "text/markdown", filePath := some "f6", isDirectory := false }

/-- The grep witness catalog. -/
def rs6 : List (String × IndexedResource) := [("buncument://api/serve", r6)]

/-- The grep witness file contents. -/
def contents6 : String → Option String := fun _ => some "Bun.serve content"

/-- The sentinel token as a character list. -/
def gtTok : List Char := ['>', '>', '>']

/-- The close sentinel token as a character list. -/
def ltTok : List Char := ['<', '<', '<']

/-- The emphasis marker as a character list. -/
def emTok : List Char := ['*', '*']

/-- The text carried by a snippet segment. -/
def segText : SnipSeg → String
  | .plain t => t
  | .hit t => t

/-- The intermediate rendering after the first replacement pass: open
sentinels already emphasised, close sentinels still present. -/
def renderMid (segs : List SnipSeg) : String :=
  renderSnippetWith "**" "<<<" segs

/-- Qualification of one catalog entry for a grep hit producing a given
result: a backing file, not a directory, passing the literal path filter,
readable content with a positive match count, and the result fields built
from that content. -/
def grepHit (g : GrepEngine) (contents : String → Option String) (searchPath : String)
    (ur : String × IndexedResource) (res : SearchResult) : Prop :=
  ∃ fp content, ur.2.filePath = some fp ∧ ur.2.isDirectory = false ∧
    (searchPath = "" ∨ jsStartsWith (jsReplaceFirst "buncument://" "" ur.1) searchPath = true) ∧
    contents fp = some content ∧ 0 < g.count content ∧
    res = { uri := ur.2.uri, title := ur.2.name, score := (g.count content : Int),
            snippet := grepSnippet content (g.firstIdx content) }

/-- The grep result the witness catalog produces. -/
def res6 : SearchResult :=
  { uri := "buncument://api/serve", title := "Serve", score := 1
    snippet := grepSnippet "Bun.serve content" 0 }

/-! Helper lemmas. -/

/-- When every insert succeeds the worker transaction accumulates all
documents. -/
theorem runInserts_all_ok (ok : FtsRow → Bool) (docs : List FtsRow) :
    ∀ acc, (∀ d ∈ docs, ok d = true) → runInserts ok acc docs = some (acc ++ docs) := by
  induction docs with
  | nil => intro acc _; simp [runInserts]
  | cons d ds ih =>
    intro acc h
    have hd := h d (List.mem_cons_self d ds)
    simp only [runInserts, hd, if_true]
    rw [ih (acc ++ [d]) (fun x hx => h x (List.mem_cons_of_mem d hx))]
    simp

/-- When any insert fails the worker transaction aborts. -/
theorem runInserts_fail (ok : FtsRow → Bool) (docs : List FtsRow) :
    ∀ acc, (∃ d ∈ docs, ok d = false) → runInserts ok acc docs = none := by
  induction docs with
  | nil => intro acc h; simp at h
  | cons d ds ih =>
    intro acc h
    by_cases hd : ok d = true
    · simp only [runInserts, hd, if_true]
      apply ih
      obtain ⟨x, hx, hxf⟩ := h
      rcases List.mem_cons.mp hx with rfl | hx'
      · rw [hd] at hxf; cases hxf
      · exact ⟨x, hx', hxf⟩
    · have hdf : ok d = false := by revert hd; cases ok d <;> simp
      simp [runInserts, hdf]

/-- Membership in a deduplication walk: kept exactly when present in the
remainder and not yet seen. -/
theorem mem_dedupAux (x : Char) :
    ∀ (l seen : List Char), x ∈ dedupAux seen l ↔ x ∈ l ∧ x ∉ seen := by
  intro l
  induction l with
  | nil => intro seen; simp [dedupAux]
  | cons c rest ih =>
    intro seen
    by_cases hc : seen.contains c = true
    · have hcm : c ∈ seen := by simpa using hc
      simp only [dedupAux, hc, if_true]
      rw [ih seen]
      simp only [List.mem_cons]
      constructor
      · rintro ⟨hx, hns⟩
        exact ⟨Or.inr hx, hns⟩
      · rintro ⟨hx | hx, hns⟩
        · exact absurd (hx ▸ hcm) hns
        · exact ⟨hx, hns⟩
    · have hcm : c ∉ seen := by simpa using hc
      have hstep : dedupAux seen (c :: rest) = c :: dedupAux (seen ++ [c]) rest := by
        simp [dedupAux, hcm]
      rw [hstep]
      simp only [List.mem_cons]
      rw [ih (seen ++ [c])]
      constructor
      · rintro (rfl | ⟨hx, hns⟩)
        · exact ⟨Or.inl rfl, hcm⟩
        · exact ⟨Or.inr hx, fun hmem => hns (by simp [hmem])⟩
      · rintro ⟨hx | hx, hns⟩
        · exact Or.inl hx
        · by_cases hxc : x = c
          · exact Or.inl hxc
          · exact Or.inr ⟨hx, by simp [hns, hxc]⟩

/-- Membership is preserved by first-occurrence deduplication. -/
theorem mem_dedupFirst (l : List Char) (x : Char) : x ∈ dedupFirst l ↔ x ∈ l := by
  unfold dedupFirst
  rw [mem_dedupAux x l []]
  simp

/-- A deduplication walk produces a duplicate-free list. -/
theorem nodup_dedupAux : ∀ (l seen : List Char), (dedupAux seen l).Nodup := by
  intro l
  induction l with
  | nil => intro seen; simp [dedupAux]
  | cons c rest ih =>
    intro seen
    by_cases hc : seen.contains c = true
    · simp only [dedupAux, hc, if_true]
      exact ih seen
    · have hcm : c ∉ seen := by simpa using hc
      have hstep : dedupAux seen (c :: rest) = c :: dedupAux (seen ++ [c]) rest := by
        simp [dedupAux, hcm]
      rw [hstep]
      refine List.nodup_cons.mpr ⟨?_, ih (seen ++ [c])⟩
      intro hmem
      have hx := (mem_dedupAux c rest (seen ++ [c])).mp hmem
      exact hx.2 (by simp)

/-- First-occurrence deduplication produces a duplicate-free list. -/
theorem nodup_dedupFirst (l : List Char) : (dedupFirst l).Nodup :=
  nodup_dedupAux l []

/-! Claim C1.  The claim asserts that every triggered full-text rebuild
deletes and reinserts inside one all-or-nothing transaction.  The main
rebuild path of src/index.ts (clearSearchIndex plus one autocommitted
insert per document) is not transactional: a failure at the second insert
leaves exactly one row, which is neither the prior store nor the new set.
The worker REBUILD_INDEX handler is transactional and satisfies the
property. -/

/-- C1 counterexample: on the main rebuild path, with prior store [c1r0]
and documents [c1d1, c1d2] whose second insert fails, the resulting store
is [c1d1]: not the prior state, not the full new set, but a partial
population, contradicting the claim. -/
theorem c1_counterexample :
    mainRebuild c1ok [c1r0] [c1d1, c1d2] ≠ [c1r0] ∧
    mainRebuild c1ok [c1r0] [c1d1, c1d2] ≠ [c1d1, c1d2] ∧
    mainRebuild c1ok [c1r0] [c1d1, c1d2] = [c1d1] := by
  decide

/-- C1 (amended): the worker REBUILD_INDEX rebuild is all-or-nothing:
when every insert succeeds the store holds exactly the new document set,
and when any insert fails the rollback leaves the store in its prior
state.  The main-process rebuild path does not have this property (see
the counterexample). -/
theorem c1_worker_rebuild_atomic (ok : FtsRow → Bool) (st docs : List FtsRow) :
    ((∀ d ∈ docs, ok d = true) → workerRebuild ok st docs = docs) ∧
    ((∃ d ∈ docs, ok d = false) → workerRebuild ok st docs = st) := by
  constructor
  · intro h
    unfold workerRebuild
    rw [runInserts_all_ok ok docs [] h]
    simp
  · intro h
    unfold workerRebuild
    rw [runInserts_fail ok docs [] h]

/-- C1 witness: the amended theorem applied at a concrete successful
rebuild and at the concrete failing rebuild. -/
theorem c1_worker_rebuild_atomic_witness :
    ((∀ d ∈ [c1d1], c1ok d = true) ∧ workerRebuild c1ok [c1r0] [c1d1] = [c1d1]) ∧
    ((∃ d ∈ [c1d1, c1d2], c1ok d = false) ∧ workerRebuild c1ok [c1r0] [c1d1, c1d2] = [c1r0]) :=
  ⟨⟨by decide, (c1_worker_rebuild_atomic c1ok [c1r0] [c1d1]).1 (by decide)⟩,
   ⟨⟨c1d2, by decide, by decide⟩,
    (c1_worker_rebuild_atomic c1ok [c1r0] [c1d1, c1d2]).2 ⟨c1d2, by decide, by decide⟩⟩⟩

/-! Claim C9: grep flag handling. -/

/-- A deduplication walk is a subsequence of its input: kept characters
appear in their original (first-occurrence) order. -/
theorem sublist_dedupAux : ∀ (l seen : List Char), (dedupAux seen l).Sublist l := by
  intro l
  induction l with
  | nil => intro seen; simp [dedupAux]
  | cons c rest ih =>
    intro seen
    by_cases hc : seen.contains c = true
    · simp only [dedupAux, hc, if_true]
      exact (ih seen).trans (List.sublist_cons_self c rest)
    · have hcm : c ∉ seen := by simpa using hc
      have hstep : dedupAux seen (c :: rest) = c :: dedupAux (seen ++ [c]) rest := by
        simp [dedupAux, hcm]
      rw [hstep]
      exact List.Sublist.cons₂ c (ih (seen ++ [c]))

/-- First-occurrence deduplication is a subsequence of its input. -/
theorem sublist_dedupFirst (l : List Char) : (dedupFirst l).Sublist l :=
  sublist_dedupAux l []

/-- C9: for every caller-supplied flags string, the compiled flag string
keeps exactly the allowed characters of the input: it contains only
characters from the allowed set, every allowed character of the input
survives into it, it always contains the global flag, it is
duplicate-free, it is a subsequence of the allowed characters of the
input followed by the fallback global flag (so the kept flags appear in
their first-occurrence order, disallowed characters being silently
discarded rather than erroring), it contains nothing that was not in the
input apart from the appended global flag, and an omitted flags argument
defaults to "gi" (global plus case-insensitive); two concrete runs show
the first-occurrence order and the appended global flag. -/
theorem c9_grep_flags (s : String) :
    (∀ c ∈ (computeGrepFlags (some s)).toList, c ∈ allowedFlags) ∧
    (∀ c ∈ s.toList, c ∈ allowedFlags → c ∈ (computeGrepFlags (some s)).toList) ∧
    'g' ∈ (computeGrepFlags (some s)).toList ∧
    (computeGrepFlags (some s)).toList.Nodup ∧
    (computeGrepFlags (some s)).toList.Sublist
      ((s.toList.filter (fun c => allowedFlags.contains c)) ++ ['g']) ∧
    (∀ c ∈ (computeGrepFlags (some s)).toList, c = 'g' ∨ c ∈ s.toList) ∧
    computeGrepFlags none = "gi" ∧
    computeGrepFlags (some "imxgi") = "img" ∧
    computeGrepFlags (some "si") = "sig" := by
  have hnone : computeGrepFlags none = "gi" := by decide
  have hcon1 : computeGrepFlags (some "imxgi") = "img" := by decide
  have hcon2 : computeGrepFlags (some "si") = "sig" := by decide
  by_cases hs : s = ""
  · subst hs
    refine ⟨by decide, by decide, by decide, by decide, ?_, by decide, hnone, hcon1, hcon2⟩
    show ("g".toList).Sublist (("".toList.filter (fun c => allowedFlags.contains c)) ++ ['g'])
    exact List.Sublist.refl _
  · have hflmem : ∀ c ∈ dedupFirst (s.toList.filter (fun c => allowedFlags.contains c)),
        c ∈ allowedFlags ∧ c ∈ s.toList := by
      intro c hc
      have hc2 := (mem_dedupFirst _ c).mp hc
      have hc3 := List.mem_filter.mp hc2
      exact ⟨by simpa using hc3.2, hc3.1⟩
    have hflnodup : (dedupFirst (s.toList.filter (fun c => allowedFlags.contains c))).Nodup :=
      nodup_dedupFirst _
    have hflsub : (dedupFirst (s.toList.filter (fun c => allowedFlags.contains c))).Sublist
        (s.toList.filter (fun c => allowedFlags.contains c)) := sublist_dedupFirst _
    have hcomplete : ∀ c ∈ s.toList, c ∈ allowedFlags →
        c ∈ dedupFirst (s.toList.filter (fun c => allowedFlags.contains c)) := by
      intro c hc hca
      exact (mem_dedupFirst _ c).mpr (List.mem_filter.mpr ⟨hc, by simpa using hca⟩)
    by_cases hg : (dedupFirst (s.toList.filter (fun c => allowedFlags.contains c))).contains 'g' = true
    · have hgm : 'g' ∈ dedupFirst (s.toList.filter (fun c => allowedFlags.contains c)) := by
        simpa using hg
      have hne : dedupFirst (s.toList.filter (fun c => allowedFlags.contains c)) ≠ [] := by
        intro h0
        rw [h0] at hgm
        simp at hgm
      have hmkne :
          String.mk (dedupFirst (s.toList.filter (fun c => allowedFlags.contains c))) ≠ "" := by
        intro hc
        exact hne (congrArg String.toList hc)
      have hcg : computeGrepFlags (some s) =
          String.mk (dedupFirst (s.toList.filter (fun c => allowedFlags.contains c))) := by
        unfold computeGrepFlags
        simp only [Option.getD, if_neg hs, hg, if_true, if_neg hmkne]
      rw [hcg]
      refine ⟨fun c hc => (hflmem c hc).1, hcomplete, hgm, hflnodup, ?_,
        fun c hc => Or.inr (hflmem c hc).2, hnone, hcon1, hcon2⟩
      exact hflsub.trans (List.sublist_append_left _ _)
    · have hgf : (dedupFirst (s.toList.filter (fun c => allowedFlags.contains c))).contains 'g'
          = false := by
        simpa using hg
      have hgnotin : 'g' ∉ dedupFirst (s.toList.filter (fun c => allowedFlags.contains c)) := by
        simpa using hg
      have hmkne :
          String.mk (dedupFirst (s.toList.filter (fun c => allowedFlags.contains c)) ++ ['g'])
            ≠ "" := by
        intro hc
        have h2 : dedupFirst (s.toList.filter (fun c => allowedFlags.contains c)) ++ ['g']
            = ([] : List Char) := congrArg String.toList hc
        simp at h2
      have hcg : computeGrepFlags (some s) =
          String.mk (dedupFirst (s.toList.filter (fun c => allowedFlags.contains c)) ++ ['g']) := by
        unfold computeGrepFlags
        simp only [Option.getD, if_neg hs, hgf, Bool.false_eq_true, if_false, if_neg hmkne]
      rw [hcg]
      refine ⟨?_, ?_, ?_, ?_, ?_, ?_, hnone, hcon1, hcon2⟩
      · intro c hc
        rcases List.mem_append.mp hc with hc1 | hc2
        · exact (hflmem c hc1).1
        · have hcg2 : c = 'g' := by simpa using hc2
          subst hcg2
          decide
      · intro c hc hca
        exact List.mem_append.mpr (Or.inl (hcomplete c hc hca))
      · simp
      · refine List.Nodup.append hflnodup (List.nodup_singleton _) ?_
        intro a ha hb
        have hag : a = 'g' := by simpa using hb
        subst hag
        exact hgnotin ha
      · exact List.Sublist.append_right hflsub ['g']
      · intro c hc
        rcases List.mem_append.mp hc with hc1 | hc2
        · exact Or.inr (hflmem c hc1).2
        · exact Or.inl (by simpa using hc2)

/-- C9 witness: the theorem applied to a flag string holding duplicates,
a disallowed character and no global flag; the preservation conjunct is
discharged at the concrete caller flag i, which is proved to survive. -/
theorem c9_grep_flags_witness :
    ('i' ∈ "imxi".toList ∧ 'i' ∈ allowedFlags) ∧
    'i' ∈ (computeGrepFlags (some "imxi")).toList ∧
    'g' ∈ (computeGrepFlags (some "imxi")).toList ∧
    (computeGrepFlags (some "imxi")).toList.Nodup ∧
    computeGrepFlags (some "imxgi") = "img" :=
  ⟨⟨by decide, by decide⟩,
   (c9_grep_flags "imxi").2.1 'i' (by decide) (by decide),
   (c9_grep_flags "imxi").2.2.1,
   (c9_grep_flags "imxi").2.2.2.1,
   (c9_grep_flags "imxi").2.2.2.2.2.2.2.1⟩

/-! Claim C4: query sanitization and the empty-query early return. -/

/-- A join with the OR separator is empty exactly when the joined list is
empty, provided no element is itself empty. -/
theorem joinOr_eq_empty_iff (l : List String) (h : ∀ x ∈ l, x ≠ "") :
    (joinOr l = "" ↔ l = []) := by
  match l with
  | [] => simp [joinOr]
  | [x] =>
    simp only [joinOr]
    constructor
    · intro hx
      exact absurd hx (h x (by simp))
    · intro hx
      cases hx
  | x :: y :: xs =>
    simp only [joinOr]
    constructor
    · intro hx
      have hdata : x.toList ++ (" OR " ++ joinOr (y :: xs)).toList = [] := by
        have h3 := congrArg String.toList hx
        simp at h3
      have hx0 : x.toList = [] := by
        rcases List.append_eq_nil.mp hdata with ⟨h1, _⟩
        exact h1
      exact absurd (by apply String.ext; simpa using hx0 : x = "") (h x (by simp))
    · intro hx
      cases hx

/-- The quoted terms produced by sanitization are never empty. -/
theorem sanitize_terms_ne_empty (query : String) :
    ∀ x ∈ ((splitStr query isJsSpace).filter (fun t => t.length > 0)).filterMap (fun t =>
      let cleaned := cleanTerm t
      if cleaned = "" then none else some ("\"" ++ cleaned ++ "\"")), x ≠ "" := by
  intro x hx
  obtain ⟨t, _, ht⟩ := List.mem_filterMap.mp hx
  by_cases hcl : cleanTerm t = ""
  · simp [hcl] at ht
  · dsimp only at ht
    rw [if_neg hcl] at ht
    have hx1 : "\"" ++ cleanTerm t ++ "\"" = x := Option.some.inj ht
    intro hx0
    rw [hx0] at hx1
    have hdata := congrArg String.toList hx1
    simp at hdata

/-- C4: sanitization behaves as specified: a query sanitizes to the empty
string exactly when every whitespace-separated piece consists solely of
reserved characters (whitespace-only queries included, vacuously); every
query that sanitizes to empty makes search return the empty list with
zero store-statement executions; and a concrete mixed query shows the
reserved-character stripping, double-quote wrapping and OR joining. -/
theorem c4_sanitize_empty (q : String) (e : FtsEngine) (rows : List FtsRow) (p : String)
    (lim : Nat) :
    (sanitizeFtsQuery q = "" ↔
      ∀ t ∈ splitStr q isJsSpace, ∀ c ∈ t.toList, ftsReserved c = true) ∧
    (sanitizeFtsQuery q = "" → searchDocumentsRun e rows q p lim = ([], 0)) ∧
    sanitizeFtsQuery "run \"fast\" (now):" = "\"run\" OR \"fast\" OR \"now\"" := by
  refine ⟨?_, ?_, by decide⟩
  · unfold sanitizeFtsQuery
    rw [joinOr_eq_empty_iff _ (sanitize_terms_ne_empty q)]
    rw [List.filterMap_eq_nil_iff]
    constructor
    · intro h t ht c hc
      by_cases hlen : t.length > 0
      · have h2 := h t (List.mem_filter.mpr ⟨ht, by simpa using hlen⟩)
        dsimp only at h2
        by_cases hcl : cleanTerm t = ""
        · have hfil : t.toList.filter (fun c => !ftsReserved c) = [] := by
            have h3 := congrArg String.toList hcl
            simpa [cleanTerm] using h3
          have h4 := List.filter_eq_nil_iff.mp hfil c hc
          simpa using h4
        · rw [if_neg hcl] at h2
          cases h2
      · have hnil : t.toList = [] := by
          have hl0 : t.toList.length = 0 := by
            have hteq : t.length = t.toList.length := rfl
            omega
          exact List.length_eq_zero.mp hl0
        rw [hnil] at hc
        cases hc
    · intro h t ht
      have ht2 := List.mem_filter.mp ht
      dsimp only
      have hcl : cleanTerm t = "" := by
        unfold cleanTerm
        have hfil : t.toList.filter (fun c => !ftsReserved c) = [] :=
          List.filter_eq_nil_iff.mpr (fun c hc => by simp [h t ht2.1 c hc])
        rw [hfil]
      simp [hcl]
  · intro h
    unfold searchDocumentsRun
    simp [h]

/-- C4 witness: the theorem applied to a query made of whitespace and
reserved punctuation, with a nonempty store. -/
theorem c4_sanitize_empty_witness :
    sanitizeFtsQuery " :^* () " = "" ∧
    searchDocumentsRun trivEngine [demoRow] " :^* () " "" 30 = ([], 0) :=
  ⟨by decide, (c4_sanitize_empty " :^* () " trivEngine [demoRow] "" 30).2.1 (by decide)⟩

/-! Claim C10: slug normalization edge cases. -/

/-- C10: normalization strips trailing slash runs as well as leading
ones, strips at most one trailing ".md" (so "foo.md.md" keeps one
suffix), and rejects exactly the inputs whose pipeline result is empty
(whitespace-only, slashes-only, bare ".md") with the slug-required error;
that rejection happens before any catalog lookup, so readDocument reports
the same error for every catalog rather than a not-found error. -/
theorem c10_normalize (input : String) (catalog : List (String × IndexedResource))
    (contents : String → String) :
    normalizeSlug "foo.md.md" = Except.ok "buncument://foo.md" ∧
    normalizeSlug "a/b///" = Except.ok "buncument://a/b" ∧
    normalizeSlug "///" = Except.error ReadErr.slugRequired ∧
    normalizeSlug ".md" = Except.error ReadErr.slugRequired ∧
    normalizeSlug "   " = Except.error ReadErr.slugRequired ∧
    (normalizeSlug input = Except.error ReadErr.slugRequired ↔
      (jsTrim input = "" ∨
        (hasSubstr "://".toList (jsTrim input).toList = false ∧
          stripDotMd (stripTrailingSlashes (stripLeadingSlashes (jsTrim input))) = ""))) ∧
    (normalizeSlug input = Except.error ReadErr.slugRequired →
      readDocument catalog contents input = Except.error ReadErr.slugRequired) := by
  refine ⟨by decide, by decide, by decide, by decide, by decide, ?_, ?_⟩
  · simp only [normalizeSlug]
    constructor
    · intro h
      by_cases h1 : jsTrim input = ""
      · exact Or.inl h1
      · rw [if_neg h1] at h
        by_cases h2 : hasSubstr "://".toList (jsTrim input).toList = true
        · rw [if_pos h2] at h
          simp at h
        · have h2f : hasSubstr "://".toList (jsTrim input).toList = false := by
            revert h2
            cases hasSubstr "://".toList (jsTrim input).toList <;> simp
          have h2n : ¬ hasSubstr "://".toList (jsTrim input).toList = true := by
            rw [h2f]
            simp
          rw [if_neg h2n] at h
          by_cases h3 :
              stripDotMd (stripTrailingSlashes (stripLeadingSlashes (jsTrim input))) = ""
          · exact Or.inr ⟨h2f, h3⟩
          · rw [if_neg h3] at h
            simp at h
    · intro h
      rcases h with h1 | ⟨h2f, h3⟩
      · rw [if_pos h1]
      · by_cases h1 : jsTrim input = ""
        · rw [if_pos h1]
        · have h2n : ¬ hasSubstr "://".toList (jsTrim input).toList = true := by
            rw [h2f]
            simp
          rw [if_neg h1, if_neg h2n, if_pos h3]
  · intro h
    simp only [readDocument, h]

/-- C10 witness: the general rejection conjunct applied at the
slashes-only input with an arbitrary concrete catalog. -/
theorem c10_normalize_witness :
    normalizeSlug "///" = Except.error ReadErr.slugRequired ∧
    readDocument c2catalog c2contents "///" = Except.error ReadErr.slugRequired :=
  ⟨by decide, (c10_normalize "///" c2catalog c2contents).2.2.2.2.2.2 (by decide)⟩

/-! Claim C2: what readDocument returns for a file with front-matter. -/

/-- C2 counterexample: the catalog resource guides/x is backed by a file
whose text carries a leading front-matter block; readDocument returns the
raw text unchanged, not the front-matter-stripped text the claim
requires (the stripped form is computed by the source's own
front-matter-stripping step and differs). -/
theorem c2_counterexample :
    readDocument c2catalog c2contents "guides/x" = Except.ok c2content ∧
    readDocument c2catalog c2contents "guides/x" ≠
      Except.ok (stripLeadingFrontmatter c2content) ∧
    stripLeadingFrontmatter c2content = "\nBody text." := by
  decide

/-- C2 (amended): for every valid slug whose catalog resource has a
backing file, the read operation returns the full raw text of that file,
byte for byte, including any leading front-matter block (no stripping
happens). -/
theorem c2_read_returns_raw (catalog : List (String × IndexedResource))
    (contents : String → String) (input text : String)
    (h : readDocument catalog contents input = Except.ok text) :
    ∃ key r fp, normalizeSlug input = Except.ok key ∧ catalog.lookup key = some r ∧
      r.filePath = some fp ∧ r.isDirectory = false ∧ text = contents fp := by
  unfold readDocument at h
  cases hn : normalizeSlug input with
  | error e =>
    rw [hn] at h
    dsimp only at h
    cases h
  | ok key =>
    rw [hn] at h
    dsimp only at h
    cases hl : catalog.lookup key with
    | none =>
      rw [hl] at h
      dsimp only at h
      cases h
    | some r =>
      rw [hl] at h
      dsimp only at h
      cases hf : r.filePath with
      | none =>
        rw [hf] at h
        cases hd : r.isDirectory with
        | false =>
          rw [hd] at h
          dsimp only at h
          cases h
        | true =>
          rw [hd] at h
          dsimp only at h
          cases h
      | some fp =>
        rw [hf] at h
        cases hd : r.isDirectory with
        | false =>
          rw [hd] at h
          dsimp only at h
          exact ⟨key, r, fp, rfl, hl, hf, hd, (Except.ok.inj h).symm⟩
        | true =>
          rw [hd] at h
          dsimp only at h
          cases h

/-- C2 witness: the amended theorem applied at the concrete catalog whose
file content includes front-matter. -/
theorem c2_read_returns_raw_witness :
    readDocument c2catalog c2contents "guides/x" = Except.ok c2content ∧
    (∃ key r fp, normalizeSlug "guides/x" = Except.ok key ∧
      c2catalog.lookup key = some r ∧ r.filePath = some fp ∧ r.isDirectory = false ∧
      c2content = c2contents fp) :=
  ⟨by decide, c2_read_returns_raw c2catalog c2contents "guides/x" c2content (by decide)⟩

/-! Claim C7: the three failure modes of the read operation. -/

/-- Containment of a pattern as a contiguous run, characterised as a
three-way split. -/
theorem hasSubstr_iff (pat : List Char) : ∀ (l : List Char),
    hasSubstr pat l = true ↔ ∃ u v, l = u ++ (pat ++ v) := by
  intro l
  induction l with
  | nil =>
    simp only [hasSubstr]
    constructor
    · intro h
      have hp : pat = [] := by simpa using h
      exact ⟨[], [], by simp [hp]⟩
    · rintro ⟨u, v, huv⟩
      rcases List.append_eq_nil.mp huv.symm with ⟨_, h2⟩
      rcases List.append_eq_nil.mp h2 with ⟨hp, _⟩
      simp [hp]
  | cons c rest ih =>
    simp only [hasSubstr, Bool.or_eq_true]
    constructor
    · rintro (hp | hr)
      · obtain ⟨t, ht⟩ := List.isPrefixOf_iff_prefix.mp hp
        exact ⟨[], t, by simp [ht]⟩
      · obtain ⟨u, v, huv⟩ := ih.mp hr
        exact ⟨c :: u, v, by simp [huv]⟩
    · rintro ⟨u, v, huv⟩
      cases u with
      | nil =>
        left
        exact List.isPrefixOf_iff_prefix.mpr ⟨v, by simpa using huv.symm⟩
      | cons u0 u2 =>
        right
        refine ih.mpr ⟨u2, v, ?_⟩
        have h2 : c :: rest = u0 :: (u2 ++ (pat ++ v)) := by simpa using huv
        exact (List.cons.injEq c rest u0 (u2 ++ (pat ++ v)) ▸ h2).2

/-- Dropping a whitespace-like run from the front of a list cannot
destroy an occurrence whose characters all fail the dropped predicate. -/
theorem dropWhile_keeps_substr (p : Char → Bool) (pat : List Char)
    (hpat : ∀ c ∈ pat, p c = false) (hne : pat ≠ []) :
    ∀ (u v : List Char), ∃ u2, (u ++ (pat ++ v)).dropWhile p = u2 ++ (pat ++ v) := by
  intro u
  induction u with
  | nil =>
    intro v
    cases pat with
    | nil => exact absurd rfl hne
    | cons c0 pt =>
      refine ⟨[], ?_⟩
      have hc0 : p c0 = false := hpat c0 (by simp)
      simp [List.dropWhile_cons, hc0]
  | cons a u2 ih =>
    intro v
    by_cases ha : p a = true
    · obtain ⟨u3, hu3⟩ := ih v
      refine ⟨u3, ?_⟩
      rw [List.cons_append, List.dropWhile_cons]
      simp [ha, hu3]
    · refine ⟨a :: u2, ?_⟩
      rw [List.cons_append, List.dropWhile_cons]
      simp [ha]

/-- Trimming preserves every occurrence of a pattern that contains no
whitespace character. -/
theorem jsTrimL_keeps_substr (pat l : List Char)
    (hpat : ∀ c ∈ pat, isJsSpace c = false) (hne : pat ≠ [])
    (h : hasSubstr pat l = true) : hasSubstr pat (jsTrimL l) = true := by
  obtain ⟨u, v, rfl⟩ := (hasSubstr_iff pat l).mp h
  unfold jsTrimL
  obtain ⟨u2, hu2⟩ := dropWhile_keeps_substr isJsSpace pat hpat hne u v
  rw [hu2]
  have hrev : (u2 ++ (pat ++ v)).reverse = v.reverse ++ (pat.reverse ++ u2.reverse) := by
    simp [List.reverse_append, List.append_assoc]
  rw [hrev]
  have hpat2 : ∀ c ∈ pat.reverse, isJsSpace c = false :=
    fun c hc => hpat c (List.mem_reverse.mp hc)
  have hne2 : pat.reverse ≠ [] := by simpa using hne
  obtain ⟨u3, hu3⟩ := dropWhile_keeps_substr isJsSpace pat.reverse hpat2 hne2 v.reverse u2.reverse
  rw [hu3]
  have hrev2 : (u3 ++ (pat.reverse ++ u2.reverse)).reverse = u2 ++ (pat ++ u3.reverse) := by
    simp [List.reverse_append, List.append_assoc]
  rw [hrev2]
  exact (hasSubstr_iff pat _).mpr ⟨u2, u3.reverse, rfl⟩

/-- C7: an input containing the scheme separator is rejected with the
bare-slug instruction for every catalog (so no lookup can have taken
place) and that error carries the instructing message; a normalized key
absent from the catalog yields the not-found error naming the input; and
a key resolving to a resource without a backing file or to a directory
yields the not-a-document error naming the input. -/
theorem c7_read_errors (catalog : List (String × IndexedResource)) (contents : String → String)
    (input : String) :
    (hasSubstr "://".toList input.toList = true →
      readDocument catalog contents input = Except.error ReadErr.useSlugs ∧
      ReadErr.message ReadErr.useSlugs = "Use documentation slugs like runtime/bun-apis") ∧
    (∀ key, normalizeSlug input = Except.ok key → catalog.lookup key = none →
      readDocument catalog contents input = Except.error (ReadErr.notFound input)) ∧
    (∀ key r, normalizeSlug input = Except.ok key → catalog.lookup key = some r →
      (r.filePath = none ∨ r.isDirectory = true) →
      readDocument catalog contents input = Except.error (ReadErr.notADocument input)) := by
  refine ⟨?_, ?_, ?_⟩
  · intro h
    have hpat : ∀ c ∈ "://".toList, isJsSpace c = false := by decide
    have hne : "://".toList ≠ [] := by decide
    have htrim : hasSubstr "://".toList (jsTrimL input.toList) = true :=
      jsTrimL_keeps_substr _ _ hpat hne h
    have hvne : jsTrim input ≠ "" := by
      intro h0
      have h1 : jsTrimL input.toList = [] := congrArg String.toList h0
      rw [h1] at htrim
      simp [hasSubstr] at htrim
    refine ⟨?_, rfl⟩
    have htrim2 : hasSubstr "://".toList (jsTrim input).toList = true := htrim
    simp only [readDocument, normalizeSlug]
    rw [if_neg hvne, if_pos htrim2]
  · intro key hk hl
    unfold readDocument
    rw [hk]
    dsimp only
    rw [hl]
  · intro key r hk hl hbad
    unfold readDocument
    rw [hk]
    dsimp only
    rw [hl]
    dsimp only
    rcases hbad with hf | hd
    · cases hdw : r.isDirectory <;> rw [hf]
    · cases hfw : r.filePath <;> rw [hd]

/-- C7 witness: the theorem applied to a scheme-separator input, a
missing slug and a directory slug. -/
theorem c7_read_errors_witness :
    readDocument c2catalog c2contents "scheme://foo" = Except.error ReadErr.useSlugs ∧
    readDocument c2catalog c2contents "nope" = Except.error (ReadErr.notFound "nope") ∧
    readDocument c7catalog c2contents "guides" = Except.error (ReadErr.notADocument "guides") :=
  ⟨((c7_read_errors c2catalog c2contents "scheme://foo").1 (by decide)).1,
   (c7_read_errors c2catalog c2contents "nope").2.1 "buncument://nope" (by decide) (by decide),
   (c7_read_errors c7catalog c2contents "guides").2.2 "buncument://guides" c7dir (by decide)
     (by decide) (Or.inl (by decide))⟩

/-! Claim C3: the result cache. -/

/-- Map.set followed by a lookup of the same key finds the new entry. -/
theorem lookup_mapSet_self {α : Type} (l : List (String × CacheEntry α)) (key : String)
    (e : CacheEntry α) : (mapSet l key e).lookup key = some e := by
  induction l with
  | nil => simp [mapSet, List.lookup]
  | cons kv rest ih =>
    obtain ⟨k, v⟩ := kv
    by_cases hk : k = key
    · subst hk
      simp [mapSet, List.lookup]
    · have hk2 : ¬ key = k := fun h2 => hk h2.symm
      have hbeq : (key == k) = false := beq_eq_false_iff_ne.mpr hk2
      simp [mapSet, hk, hbeq, List.lookup, ih]

/-- A lookup result that survives a filter is still found first. -/
theorem lookup_filter {α : Type} (p : String × CacheEntry α → Bool)
    (l : List (String × CacheEntry α)) (key : String) (e : CacheEntry α)
    (hl : l.lookup key = some e) (hp : p (key, e) = true) :
    (l.filter p).lookup key = some e := by
  induction l with
  | nil => simp [List.lookup] at hl
  | cons kv rest ih =>
    obtain ⟨k, v⟩ := kv
    by_cases hk : key = k
    · subst hk
      have hv : v = e := by simpa [List.lookup] using hl
      subst hv
      simp [List.filter_cons, hp, List.lookup]
    · have hbeq : (key == k) = false := beq_eq_false_iff_ne.mpr hk
      have hl2 : rest.lookup key = some e := by simpa [List.lookup, hbeq] using hl
      by_cases hkeep : p (k, v) = true
      · simp [List.filter_cons, hkeep, List.lookup, hbeq, ih hl2]
      · simp [List.filter_cons, hkeep, ih hl2]

/-- A value stored at some instant is retrieved unchanged by any get
within the TTL window, whether or not the size-triggered sweep ran. -/
theorem cache_get_after_set {α : Type} (c : SimpleCache α) (now1 now2 : Nat) (key : String)
    (v : α) (h : now2 ≤ now1 + c.ttl) :
    SimpleCache.get (SimpleCache.set c now1 key v) now2 key =
      (some v, SimpleCache.set c now1 key v) := by
  have hlk := lookup_mapSet_self c.cache key ⟨v, now1 + c.ttl⟩
  unfold SimpleCache.set
  by_cases hlen : (mapSet c.cache key ⟨v, now1 + c.ttl⟩).length > 1000
  · rw [if_pos hlen]
    unfold SimpleCache.cleanup SimpleCache.get
    dsimp only
    have hfil := lookup_filter (fun kv => decide (¬ now1 > kv.2.expiry)) _ key
      ⟨v, now1 + c.ttl⟩ hlk (by simp)
    rw [hfil]
    dsimp only
    rw [if_neg (by omega : ¬ now2 > now1 + c.ttl)]
  · rw [if_neg hlen]
    unfold SimpleCache.get
    dsimp only
    rw [hlk]
    dsimp only
    rw [if_neg (by omega : ¬ now2 > now1 + c.ttl)]

/-- C3 counterexample: searchDocuments is stateless and never consults
the SimpleCache (the repository defines the cache but does not wire it
into search); every call whose sanitized query is non-empty, in
particular the second of two consecutive identical calls, executes the
store statement once, not the zero times the claim requires. -/
theorem c3_counterexample :
    (searchDocumentsRun trivEngine [demoRow] "bun" "" 30).2 = 1 ∧
    (searchDocumentsRun trivEngine [demoRow] "bun" "" 30).2 ≠ 0 := by
  decide

/-- C3 (amended): as shipped, every search call with a non-empty
sanitized query re-executes the store statement (the cache is not wired
into search).  For the spec-modelled cached wrapper the claim holds: from
a cache without the key, the first call computes the plain search result
and stores it, and a second identical call within the TTL window returns
exactly the same result list with zero store executions; hence the cache
cannot change which results a search returns. -/
theorem c3_cache_transparent (e : FtsEngine) (rows : List FtsRow)
    (c : SimpleCache (List SearchResult)) (now1 now2 : Nat) (q p : String) (lim : Nat)
    (hfresh : c.cache.lookup (q ++ "|" ++ p ++ "|" ++ toString lim) = none)
    (hTtl : now2 ≤ now1 + c.ttl) :
    (sanitizeFtsQuery q ≠ "" → (searchDocumentsRun e rows q p lim).2 = 1) ∧
    (cachedSearch e rows c now1 q p lim).1 = searchDocuments e rows q p lim ∧
    (cachedSearch e rows (cachedSearch e rows c now1 q p lim).2.1 now2 q p lim).1 =
      (cachedSearch e rows c now1 q p lim).1 ∧
    (cachedSearch e rows (cachedSearch e rows c now1 q p lim).2.1 now2 q p lim).2.2 = 0 := by
  have hget1 : SimpleCache.get c now1 (q ++ "|" ++ p ++ "|" ++ toString lim) = (none, c) := by
    unfold SimpleCache.get
    rw [hfresh]
  have hc1 : cachedSearch e rows c now1 q p lim =
      ((searchDocumentsRun e rows q p lim).1,
        SimpleCache.set c now1 (q ++ "|" ++ p ++ "|" ++ toString lim)
          (searchDocumentsRun e rows q p lim).1,
        (searchDocumentsRun e rows q p lim).2) := by
    unfold cachedSearch
    dsimp only
    rw [hget1]
  have hget2 := cache_get_after_set c now1 now2 (q ++ "|" ++ p ++ "|" ++ toString lim)
      (searchDocumentsRun e rows q p lim).1 hTtl
  refine ⟨?_, ?_, ?_, ?_⟩
  · intro hq
    simp only [searchDocumentsRun]
    rw [if_neg hq]
  · rw [hc1]
    rfl
  · rw [hc1]
    dsimp only
    unfold cachedSearch
    dsimp only
    rw [hget2]
  · rw [hc1]
    dsimp only
    unfold cachedSearch
    dsimp only
    rw [hget2]

/-- C3 witness: the amended theorem applied to a fresh cache, time zero
for the first call and one second later for the second. -/
theorem c3_cache_transparent_witness :
    (c3cache0.cache.lookup ("bun" ++ "|" ++ "" ++ "|" ++ toString 30) = none ∧
      (1000 : Nat) ≤ 0 + c3cache0.ttl) ∧
    (cachedSearch trivEngine [demoRow]
        (cachedSearch trivEngine [demoRow] c3cache0 0 "bun" "" 30).2.1 1000 "bun" "" 30).2.2
      = 0 :=
  ⟨⟨rfl, by decide⟩,
   (c3_cache_transparent trivEngine [demoRow] c3cache0 0 1000 "bun" "" 30 rfl (by decide)).2.2.2⟩

/-! Claim C5: the path filter of the full-text search. -/

/-- Stable insertion produces a permutation of consing the element. -/
theorem insertSorted_perm {α : Type} (le : α → α → Bool) (a : α) :
    ∀ (l : List α), List.Perm (insertSorted le a l) (a :: l) := by
  intro l
  induction l with
  | nil => simp [insertSorted]
  | cons b rest ih =>
    cases hb : le b a with
    | true =>
      simp only [insertSorted, hb, if_true]
      exact List.Perm.trans (List.Perm.cons b ih) (List.Perm.swap a b rest)
    | false =>
      simp only [insertSorted, hb, Bool.false_eq_true, if_false]
      exact List.Perm.refl _

/-- The stable sort permutes its input. -/
theorem jsSortBy_perm {α : Type} (le : α → α → Bool) (l : List α) :
    List.Perm (jsSortBy le l) l := by
  have key : ∀ (l2 acc : List α),
      List.Perm (List.foldl (fun acc a => insertSorted le a acc) acc l2) (acc ++ l2) := by
    intro l2
    induction l2 with
    | nil => intro acc; simp
    | cons x rest ih =>
      intro acc
      exact List.Perm.trans (ih (insertSorted le x acc))
        (List.Perm.trans ((insertSorted_perm le x acc).append_right rest)
          List.perm_middle.symm)
  have h2 := key l []
  simpa [jsSortBy] using h2

/-- Stable insertion preserves sortedness for a transitive total
comparator. -/
theorem insertSorted_pairwise {α : Type} (le : α → α → Bool)
    (htrans : ∀ a b c, le a b = true → le b c = true → le a c = true)
    (htot : ∀ a b, le a b = true ∨ le b a = true) (a : α) :
    ∀ (l : List α), l.Pairwise (fun x y => le x y = true) →
      (insertSorted le a l).Pairwise (fun x y => le x y = true) := by
  intro l
  induction l with
  | nil => intro _; simp [insertSorted]
  | cons b rest ih =>
    intro h
    rcases List.pairwise_cons.mp h with ⟨hb, hrest⟩
    cases hba : le b a with
    | true =>
      simp only [insertSorted, hba, if_true]
      refine List.pairwise_cons.mpr ⟨?_, ih hrest⟩
      intro x hx
      have hx2 : x ∈ a :: rest := (insertSorted_perm le a rest).mem_iff.mp hx
      rcases List.mem_cons.mp hx2 with rfl | hx3
      · exact hba
      · exact hb x hx3
    | false =>
      simp only [insertSorted, hba, Bool.false_eq_true, if_false]
      have hab : le a b = true := (htot a b).resolve_right (by simp [hba])
      refine List.pairwise_cons.mpr ⟨?_, h⟩
      intro x hx
      rcases List.mem_cons.mp hx with rfl | hx2
      · exact hab
      · exact htrans a b x hab (hb x hx2)

/-- The stable sort is sorted for a transitive total comparator. -/
theorem jsSortBy_pairwise {α : Type} (le : α → α → Bool)
    (htrans : ∀ a b c, le a b = true → le b c = true → le a c = true)
    (htot : ∀ a b, le a b = true ∨ le b a = true) (l : List α) :
    (jsSortBy le l).Pairwise (fun x y => le x y = true) := by
  have key : ∀ (l2 acc : List α), acc.Pairwise (fun x y => le x y = true) →
      (List.foldl (fun acc a => insertSorted le a acc) acc l2).Pairwise
        (fun x y => le x y = true) := by
    intro l2
    induction l2 with
    | nil => intro acc h; simpa using h
    | cons x rest ih =>
      intro acc h
      exact ih _ (insertSorted_pairwise le htrans htot x acc h)
  exact key l [] (by simp)

/-- C5 counterexample: with path filter "API/" the row whose slug is
"api/serve" qualifies (SQLite LIKE is ASCII case-insensitive) and is
returned, although its slug does not start with the filter as a literal
prefix, contradicting the claim that exactly the literal-prefix rows
qualify. -/
theorem c5_counterexample :
    jsStartsWith "api/serve" "API/" = false ∧
    searchDocuments trivEngine [c5row] "bun" "API/" 30 =
      [toSearchResult trivEngine (sanitizeFtsQuery "bun") c5row] := by
  decide

/-- C5 (amended): for every non-empty path filter, exactly the rows whose
slug matches the filter followed by a percent wildcard under SQLite LIKE
semantics (ASCII case-insensitive, with percent and underscore as
wildcards; a case-insensitive literal prefix whenever the filter has no
wildcard characters) qualify; the predicate is applied inside the query
before ordering and before the limit, so the ranking order and the limit
are not distorted, and every returned result comes from a qualifying
matching row. -/
theorem c5_like_prefix_filter (e : FtsEngine) (rows : List FtsRow) (q path : String)
    (lim : Nat) (hp : path ≠ "") (hq : sanitizeFtsQuery q ≠ "") :
    searchDocuments e rows q path lim =
      ((jsSortBy (scoreLe e) (rows.filter (fun r =>
          sqliteLike (path ++ "%") r.uri && e.mtch (sanitizeFtsQuery q) r))).take lim).map
        (toSearchResult e (sanitizeFtsQuery q)) ∧
    ∀ res ∈ searchDocuments e rows q path lim,
      ∃ r, r ∈ rows ∧ e.mtch (sanitizeFtsQuery q) r = true ∧
        sqliteLike (path ++ "%") r.uri = true ∧
        res = toSearchResult e (sanitizeFtsQuery q) r := by
  have heq : searchDocuments e rows q path lim =
      ((jsSortBy (scoreLe e) ((rows.filter (e.mtch (sanitizeFtsQuery q))).filter
          (fun r => sqliteLike (path ++ "%") r.uri))).take lim).map
        (toSearchResult e (sanitizeFtsQuery q)) := by
    unfold searchDocuments searchDocumentsRun runSearchSql
    dsimp only
    rw [if_neg hq, if_neg hp]
  constructor
  · rw [heq, List.filter_filter]
  · intro res hres
    rw [heq] at hres
    obtain ⟨r, hr, hres2⟩ := List.mem_map.mp hres
    have hr2 := List.mem_of_mem_take hr
    have hr3 := (jsSortBy_perm (scoreLe e) _).mem_iff.mp hr2
    have hr4 := List.mem_filter.mp hr3
    have hr5 := List.mem_filter.mp hr4.1
    exact ⟨r, hr5.1, hr5.2, hr4.2, hres2.symm⟩

/-- C5 witness: the amended theorem applied at a lowercase filter over
the one-row store. -/
theorem c5_like_prefix_filter_witness :
    ("api/" ≠ "" ∧ sanitizeFtsQuery "bun" ≠ "") ∧
    searchDocuments trivEngine [c5row] "bun" "api/" 30 =
      ((jsSortBy (scoreLe trivEngine) ([c5row].filter (fun r =>
          sqliteLike ("api/" ++ "%") r.uri && trivEngine.mtch (sanitizeFtsQuery "bun") r))).take
          30).map
        (toSearchResult trivEngine (sanitizeFtsQuery "bun")) :=
  ⟨⟨by decide, by decide⟩,
   (c5_like_prefix_filter trivEngine [c5row] "bun" "api/" 30 (by decide) (by decide)).1⟩

/-! Claim C6: the grep pipeline. -/

/-- Membership in the grep collection loop is exactly qualification of
some catalog entry. -/
theorem mem_grepCollect (g : GrepEngine) (contents : String → Option String)
    (searchPath : String) :
    ∀ (resources : List (String × IndexedResource)) (res : SearchResult),
      res ∈ grepCollect g contents searchPath resources ↔
        ∃ ur ∈ resources, grepHit g contents searchPath ur res := by
  intro resources
  induction resources with
  | nil => intro res; simp [grepCollect]
  | cons hd rest ih =>
    intro res
    obtain ⟨uri, r⟩ := hd
    rw [List.exists_mem_cons_iff]
    cases hf : r.filePath with
    | none =>
      have hstep : grepCollect g contents searchPath ((uri, r) :: rest) =
          grepCollect g contents searchPath rest := by
        cases hd2 : r.isDirectory <;> simp [grepCollect, hf, hd2]
      rw [hstep, ih res]
      constructor
      · exact Or.inr
      · rintro (⟨fp, content, hfp, _⟩ | h2)
        · rw [hf] at hfp
          cases hfp
        · exact h2
    | some fp =>
      cases hd2 : r.isDirectory with
      | true =>
        have hstep : grepCollect g contents searchPath ((uri, r) :: rest) =
            grepCollect g contents searchPath rest := by
          simp [grepCollect, hf, hd2]
        rw [hstep, ih res]
        constructor
        · exact Or.inr
        · rintro (⟨fp2, content, _, hdir, _⟩ | h2)
          · rw [hd2] at hdir
            cases hdir
          · exact h2
      | false =>
        by_cases hg : searchPath ≠ "" ∧
            ¬ jsStartsWith (jsReplaceFirst "buncument://" "" uri) searchPath = true
        · have hstep : grepCollect g contents searchPath ((uri, r) :: rest) =
              grepCollect g contents searchPath rest := by
            simp [grepCollect, hf, hd2, hg]
          rw [hstep, ih res]
          constructor
          · exact Or.inr
          · rintro (⟨fp2, content, _, _, hor, _⟩ | h2)
            · rcases hor with hor | hor
              · exact (hg.1 hor).elim
              · exact (hg.2 hor).elim
            · exact h2
        · have hor : searchPath = "" ∨
              jsStartsWith (jsReplaceFirst "buncument://" "" uri) searchPath = true := by
            by_cases hsp : searchPath = ""
            · exact Or.inl hsp
            · refine Or.inr ?_
              by_contra hns
              exact hg ⟨hsp, hns⟩
          cases hc : contents fp with
          | none =>
            have hstep : grepCollect g contents searchPath ((uri, r) :: rest) =
                grepCollect g contents searchPath rest := by
              simp [grepCollect, hf, hd2, hg, hc]
            rw [hstep, ih res]
            constructor
            · exact Or.inr
            · rintro (⟨fp2, content, hfp2, _, _, hcon, _⟩ | h2)
              · rw [hf] at hfp2
                cases hfp2
                rw [hc] at hcon
                cases hcon
              · exact h2
          | some content =>
            by_cases hcount : g.count content > 0
            · have hstep : grepCollect g contents searchPath ((uri, r) :: rest) =
                  { uri := r.uri, title := r.name, score := (g.count content : Int),
                    snippet := grepSnippet content (g.firstIdx content) }
                    :: grepCollect g contents searchPath rest := by
                simp [grepCollect, hf, hd2, hg, hc, hcount]
                intro hsp
                exact hor.resolve_left hsp
              rw [hstep]
              simp only [List.mem_cons]
              rw [ih res]
              constructor
              · rintro (rfl | h2)
                · exact Or.inl ⟨fp, content, hf, hd2, hor, hc, hcount, rfl⟩
                · exact Or.inr h2
              · rintro (⟨fp2, content2, hfp2, _, _, hcon2, _, hres2⟩ | h2)
                · rw [hf] at hfp2
                  cases hfp2
                  rw [hc] at hcon2
                  cases hcon2
                  exact Or.inl hres2
                · exact Or.inr h2
            · have hstep : grepCollect g contents searchPath ((uri, r) :: rest) =
                  grepCollect g contents searchPath rest := by
                simp [grepCollect, hf, hd2, hg, hc, hcount]
              rw [hstep, ih res]
              constructor
              · exact Or.inr
              · rintro (⟨fp2, content2, hfp2, _, _, hcon2, hcount2, _⟩ | h2)
                · rw [hf] at hfp2
                  cases hfp2
                  rw [hc] at hcon2
                  cases hcon2
                  exact absurd hcount2 hcount
                · exact h2

/-- C6: the grep result list is built from exactly the catalog entries
that qualify: non-directory, backed by a file, passing the literal
path-prefix filter when one is given, with readable content matching at
least once; each result's score is the total match count; the final list
is sorted by descending score, holds at most the limit, and every
returned result comes from a qualifying entry. -/
theorem c6_grep (g : GrepEngine) (contents : String → Option String)
    (resources : List (String × IndexedResource)) (searchPath : String) (lim : Nat) :
    (∀ res, res ∈ grepCollect g contents searchPath resources ↔
      ∃ ur ∈ resources, grepHit g contents searchPath ur res) ∧
    List.Pairwise (fun a b => b.score ≤ a.score)
      (grepDocuments g contents resources searchPath lim) ∧
    (grepDocuments g contents resources searchPath lim).length ≤ lim ∧
    (∀ res ∈ grepDocuments g contents resources searchPath lim,
      ∃ ur ∈ resources, grepHit g contents searchPath ur res) := by
  have htrans : ∀ a b c : SearchResult, grepScoreGe a b = true → grepScoreGe b c = true →
      grepScoreGe a c = true := by
    intro a b c hab hbc
    simp only [grepScoreGe, decide_eq_true_eq] at hab hbc ⊢
    omega
  have htot : ∀ a b : SearchResult, grepScoreGe a b = true ∨ grepScoreGe b a = true := by
    intro a b
    simp only [grepScoreGe, decide_eq_true_eq]
    omega
  refine ⟨mem_grepCollect g contents searchPath resources, ?_, ?_, ?_⟩
  · have hs := jsSortBy_pairwise grepScoreGe htrans htot
      (grepCollect g contents searchPath resources)
    have hsub := List.Pairwise.sublist (List.take_sublist lim _) hs
    exact hsub.imp (fun hab => by simpa [grepScoreGe] using hab)
  · exact List.length_take_le lim _
  · intro res hres
    have h1 := List.mem_of_mem_take hres
    have h2 := (jsSortBy_perm grepScoreGe _).mem_iff.mp h1
    exact (mem_grepCollect g contents searchPath resources res).mp h2

/-- C6 witness: the soundness conjunct applied at the one-entry catalog
whose single file matches once. -/
theorem c6_grep_witness :
    res6 ∈ grepDocuments g6 contents6 rs6 "" 30 ∧
    (∃ ur ∈ rs6, grepHit g6 contents6 "" ur res6) :=
  ⟨by decide, (c6_grep g6 contents6 rs6 "" 30).2.2.2 res6 (by decide)⟩

/-! Claim C8: snippet sentinels and their replacement. -/

/-- String concatenation concatenates the character lists. -/
theorem toList_append (a b : String) : (a ++ b).toList = a.toList ++ b.toList := rfl

/-- The fuelled replacement scan is independent of the fuel as long as
the fuel covers the subject length. -/
theorem replaceAllAux_fuel (pat rep : List Char) :
    ∀ (f1 : Nat) (s : List Char) (f2 : Nat), s.length ≤ f1 → s.length ≤ f2 →
      replaceAllAux pat rep f1 s = replaceAllAux pat rep f2 s := by
  intro f1
  induction f1 with
  | zero =>
    intro s f2 h1 _
    have hs : s = [] := List.length_eq_zero.mp (Nat.le_zero.mp h1)
    subst hs
    cases f2 <;> simp [replaceAllAux]
  | succ a ih =>
    intro s f2 h1 h2
    cases s with
    | nil => cases f2 <;> simp [replaceAllAux]
    | cons c rest =>
      cases f2 with
      | zero => simp at h2
      | succ b =>
        simp only [replaceAllAux]
        by_cases hm : pat ≠ [] ∧ pat.isPrefixOf (c :: rest)
        · rw [if_pos hm, if_pos hm]
          congr 1
          have hplen : 1 ≤ pat.length := by
            have := hm.1
            cases pat with
            | nil => exact absurd rfl this
            | cons p0 pt => simp
          apply ih
          · simp only [List.length_drop, List.length_cons]
            simp only [List.length_cons] at h1
            omega
          · simp only [List.length_drop, List.length_cons]
            simp only [List.length_cons] at h2
            omega
        · rw [if_neg hm, if_neg hm]
          congr 1
          simp only [List.length_cons] at h1 h2
          exact ih rest b (by omega) (by omega)

/-- A character different from the pattern head passes through the
replacement scan untouched. -/
theorem replaceAllL_cons_ne (h0 : Char) (pt rep : List Char) (a : Char) (t : List Char)
    (ha : a ≠ h0) :
    replaceAllL (h0 :: pt) rep (a :: t) = a :: replaceAllL (h0 :: pt) rep t := by
  have hcond : ¬ ((h0 :: pt) ≠ [] ∧ (h0 :: pt).isPrefixOf (a :: t)) := by
    rintro ⟨_, hp⟩
    have hbeq : (h0 == a) = false := beq_eq_false_iff_ne.mpr (fun he => ha he.symm)
    simp [List.isPrefixOf, hbeq] at hp
  unfold replaceAllL
  simp only [List.length_cons, replaceAllAux, hcond, if_false]

/-- A block of characters all different from the pattern head passes
through the replacement scan untouched. -/
theorem replaceAllL_append (h0 : Char) (pt rep : List Char) :
    ∀ (l rest : List Char), (∀ c ∈ l, c ≠ h0) →
      replaceAllL (h0 :: pt) rep (l ++ rest) = l ++ replaceAllL (h0 :: pt) rep rest := by
  intro l
  induction l with
  | nil => intro rest _; simp
  | cons a l2 ih =>
    intro rest hl
    have ha : a ≠ h0 := hl a (by simp)
    rw [List.cons_append, replaceAllL_cons_ne h0 pt rep a (l2 ++ rest) ha]
    rw [ih rest (fun c hc => hl c (List.mem_cons_of_mem a hc))]
    rfl

/-- The replacement scan fires on an occurrence of the pattern sitting at
the head of the subject. -/
theorem replaceAllL_head (p0 : Char) (pt rep rest : List Char) :
    replaceAllL (p0 :: pt) rep ((p0 :: pt) ++ rest) = rep ++ replaceAllL (p0 :: pt) rep rest := by
  have hcond : ((p0 :: pt) ≠ [] ∧ (p0 :: pt).isPrefixOf (p0 :: (pt ++ rest)) = true) := by
    refine ⟨by simp, ?_⟩
    exact List.isPrefixOf_iff_prefix.mpr (⟨rest, rfl⟩ :
      (p0 :: pt) <+: ((p0 :: pt) ++ rest))
  show replaceAllAux (p0 :: pt) rep ((pt ++ rest).length + 1) (p0 :: (pt ++ rest)) = _
  simp only [replaceAllAux]
  rw [if_pos hcond]
  have hdrop : (p0 :: (pt ++ rest)).drop (p0 :: pt).length = rest := by
    rw [show (p0 :: pt).length = pt.length + 1 from rfl, List.drop_succ_cons]
    exact List.drop_left pt rest
  rw [hdrop]
  congr 1
  exact replaceAllAux_fuel (p0 :: pt) rep (pt ++ rest).length rest rest.length
    (by simp) (le_refl _)

/-- Specialisation of the pass-through lemma to the open sentinel. -/
theorem gt_skip (l rest : List Char) (hl : ∀ c ∈ l, c ≠ '>') :
    replaceAllL gtTok emTok (l ++ rest) = l ++ replaceAllL gtTok emTok rest :=
  replaceAllL_append '>' ['>', '>'] emTok l rest hl

/-- Specialisation of the head-occurrence lemma to the open sentinel. -/
theorem gt_fire (rest : List Char) :
    replaceAllL gtTok emTok (gtTok ++ rest) = emTok ++ replaceAllL gtTok emTok rest :=
  replaceAllL_head '>' ['>', '>'] emTok rest

/-- Specialisation of the pass-through lemma to the close sentinel. -/
theorem lt_skip (l rest : List Char) (hl : ∀ c ∈ l, c ≠ '<') :
    replaceAllL ltTok emTok (l ++ rest) = l ++ replaceAllL ltTok emTok rest :=
  replaceAllL_append '<' ['<', '<'] emTok l rest hl

/-- Specialisation of the head-occurrence lemma to the close sentinel. -/
theorem lt_fire (rest : List Char) :
    replaceAllL ltTok emTok (ltTok ++ rest) = emTok ++ replaceAllL ltTok emTok rest :=
  replaceAllL_head '<' ['<', '<'] emTok rest

/-- First pass: replacing the open sentinels turns the sentinel rendering
into the intermediate rendering, provided the excerpt text itself holds
no greater-than characters. -/
theorem gt_pass (segs : List SnipSeg)
    (h : ∀ seg ∈ segs, ∀ c ∈ (segText seg).toList, c ≠ '>') :
    replaceAllL gtTok emTok (renderSnippet segs).toList = (renderMid segs).toList := by
  induction segs with
  | nil => rfl
  | cons seg rest ih =>
    have hrest : ∀ s ∈ rest, ∀ c ∈ (segText s).toList, c ≠ '>' :=
      fun s hs => h s (List.mem_cons_of_mem seg hs)
    have ihr := ih hrest
    cases seg with
    | plain t =>
      have ht : ∀ c ∈ t.toList, c ≠ '>' := h (SnipSeg.plain t) (by simp)
      show replaceAllL gtTok emTok (t.toList ++ (renderSnippet rest).toList) =
        t.toList ++ (renderMid rest).toList
      rw [gt_skip t.toList _ ht, ihr]
    | hit t =>
      have ht : ∀ c ∈ t.toList, c ≠ '>' := h (SnipSeg.hit t) (by simp)
      have hl : ∀ c ∈ t.toList ++ ltTok, c ≠ '>' := by
        intro c hc
        rcases List.mem_append.mp hc with hc2 | hc2
        · exact ht c hc2
        · have hc3 : c = '<' := by
            simp only [ltTok, List.mem_cons] at hc2
            rcases hc2 with rfl | rfl | rfl | hfalse
            · rfl
            · rfl
            · rfl
            · cases hfalse
          subst hc3
          decide
      have hX : (renderSnippet (SnipSeg.hit t :: rest)).toList =
          gtTok ++ ((t.toList ++ ltTok) ++ (renderSnippet rest).toList) := by
        show (((">>>" ++ t) ++ "<<<") ++ renderSnippet rest).toList = _
        rw [toList_append, toList_append, toList_append]
        rw [show (">>>" : String).toList = gtTok from rfl,
           show ("<<<" : String).toList = ltTok from rfl]
        simp [List.append_assoc]
      have hY : (renderMid (SnipSeg.hit t :: rest)).toList =
          emTok ++ ((t.toList ++ ltTok) ++ (renderMid rest).toList) := by
        show ((("**" ++ t) ++ "<<<") ++ renderMid rest).toList = _
        rw [toList_append, toList_append, toList_append]
        rw [show ("**" : String).toList = emTok from rfl,
           show ("<<<" : String).toList = ltTok from rfl]
        simp [List.append_assoc]
      rw [hX, gt_fire, gt_skip _ _ hl, ihr, hY]

/-- Second pass: replacing the close sentinels turns the intermediate
rendering into the emphasised rendering, provided the excerpt text itself
holds no less-than characters. -/
theorem lt_pass (segs : List SnipSeg)
    (h : ∀ seg ∈ segs, ∀ c ∈ (segText seg).toList, c ≠ '<') :
    replaceAllL ltTok emTok (renderMid segs).toList = (renderEmph segs).toList := by
  induction segs with
  | nil => rfl
  | cons seg rest ih =>
    have hrest : ∀ s ∈ rest, ∀ c ∈ (segText s).toList, c ≠ '<' :=
      fun s hs => h s (List.mem_cons_of_mem seg hs)
    have ihr := ih hrest
    cases seg with
    | plain t =>
      have ht : ∀ c ∈ t.toList, c ≠ '<' := h (SnipSeg.plain t) (by simp)
      show replaceAllL ltTok emTok (t.toList ++ (renderMid rest).toList) =
        t.toList ++ (renderEmph rest).toList
      rw [lt_skip t.toList _ ht, ihr]
    | hit t =>
      have ht : ∀ c ∈ t.toList, c ≠ '<' := h (SnipSeg.hit t) (by simp)
      have hl : ∀ c ∈ emTok ++ t.toList, c ≠ '<' := by
        intro c hc
        rcases List.mem_append.mp hc with hc2 | hc2
        · have hc3 : c = '*' := by
            simp only [emTok, List.mem_cons] at hc2
            rcases hc2 with rfl | rfl | hfalse
            · rfl
            · rfl
            · cases hfalse
          subst hc3
          decide
        · exact ht c hc2
      have hX : (renderMid (SnipSeg.hit t :: rest)).toList =
          (emTok ++ t.toList) ++ (ltTok ++ (renderMid rest).toList) := by
        show ((("**" ++ t) ++ "<<<") ++ renderMid rest).toList = _
        rw [toList_append, toList_append, toList_append]
        rw [show ("**" : String).toList = emTok from rfl,
           show ("<<<" : String).toList = ltTok from rfl]
        simp [List.append_assoc]
      have hY : (renderEmph (SnipSeg.hit t :: rest)).toList =
          (emTok ++ t.toList) ++ (emTok ++ (renderEmph rest).toList) := by
        show ((("**" ++ t) ++ "**") ++ renderEmph rest).toList = _
        rw [toList_append, toList_append, toList_append]
        rw [show ("**" : String).toList = emTok from rfl]
        simp [List.append_assoc]
      rw [hX, lt_skip _ _ hl, lt_fire, ihr, hY]

/-- C8 counterexample: the sentinels can collide with the excerpt's own
text.  A snippet whose document text contains the open sentinel sequence
has that document substring replaced by the emphasis marker too, so the
post-processed snippet differs from the rendering in which exactly the
engine-inserted delimiters are emphasised. -/
theorem c8_counterexample :
    postprocessSnippet (renderSnippet [SnipSeg.plain ">>> note ", SnipSeg.hit "serve"]) ≠
      renderEmph [SnipSeg.plain ">>> note ", SnipSeg.hit "serve"] ∧
    postprocessSnippet (renderSnippet [SnipSeg.plain ">>> note ", SnipSeg.hit "serve"]) =
      "** note **serve**" ∧
    renderEmph [SnipSeg.plain ">>> note ", SnipSeg.hit "serve"] = ">>> note **serve**" := by
  decide

/-- C8 (amended): the open and close sentinels are distinct, but they can
collide with the excerpt's own text: the post-processing replaces every
sentinel occurrence, document-originating ones included.  Only when the
excerpt text contains no angle-bracket characters (so no collision is
possible) do exactly the engine-inserted match delimiters end up
emphasised. -/
theorem c8_sentinels (segs : List SnipSeg)
    (h : ∀ seg ∈ segs, ∀ c ∈ (segText seg).toList, c ≠ '>' ∧ c ≠ '<') :
    (">>>" ≠ "<<<") ∧
    postprocessSnippet (renderSnippet segs) = renderEmph segs := by
  refine ⟨by decide, ?_⟩
  have h1 : ∀ seg ∈ segs, ∀ c ∈ (segText seg).toList, c ≠ '>' :=
    fun s hs c hc => (h s hs c hc).1
  have h2 : ∀ seg ∈ segs, ∀ c ∈ (segText seg).toList, c ≠ '<' :=
    fun s hs c hc => (h s hs c hc).2
  unfold postprocessSnippet jsReplaceAll
  rw [show (">>>" : String).toList = gtTok from rfl,
     show ("<<<" : String).toList = ltTok from rfl,
     show ("**" : String).toList = emTok from rfl]
  rw [gt_pass segs h1]
  rw [show (String.mk (renderMid segs).toList).toList = (renderMid segs).toList from rfl]
  rw [lt_pass segs h2]
  rfl

/-- C8 witness: the amended theorem applied to a collision-free excerpt. -/
theorem c8_sentinels_witness :
    (∀ seg ∈ [SnipSeg.plain "Use ", SnipSeg.hit "serve"],
      ∀ c ∈ (segText seg).toList, c ≠ '>' ∧ c ≠ '<') ∧
    postprocessSnippet (renderSnippet [SnipSeg.plain "Use ", SnipSeg.hit "serve"]) =
      renderEmph [SnipSeg.plain "Use ", SnipSeg.hit "serve"] :=
  ⟨by decide, (c8_sentinels [SnipSeg.plain "Use ", SnipSeg.hit "serve"] (by decide)).2⟩
